import Mathlib

/-!
Shallow embedding of the `generate-combinations` library (`src/index.ts`):
the template value model, the `Combination` type and its built-in
combinators (`one`, `some`, `optional`), the subset enumerator
`arrayCombinate`, and the cross-product expansion engine `generate`
together with its deep-cloning variant `generate.mutable`.

JavaScript objects are modelled as insertion-ordered association lists
with unique keys, and JavaScript numbers used as loop indices and
bitmasks are modelled as unbounded naturals (exact for every input a
JavaScript engine can enumerate).  A separate heap-instrumented copy of
the engine (`generateH`) makes the frame properties of `generate`
provable: it tracks every object allocation and every property write.
-/

namespace GenComb

/-- Outcome of evaluating `new f()` on a JavaScript function value `f`:
the construction may throw (as for arrow functions), may yield an object
that is an `instanceof KeyValueUndefined` (as for the class
`KeyValueUndefined` itself, any subclass of it, and any function whose
body returns such an instance), or may yield some other object. -/
inductive NewResult where
  | throws : NewResult
  | kvuInstance : NewResult
  | nonInstance : NewResult
deriving DecidableEq

/-- The legal types of a template (source type `Value`):
`string | number | {[key: string]: Value} | Value[] | null | undefined |
Function`.  A function value carries an identity tag (JavaScript
functions are compared by reference) together with its
`new`-construction behaviour. -/
inductive Value where
  | str : String → Value
  | num : Int → Value
  | obj : List (String × Value) → Value
  | arr : List Value → Value
  | null : Value
  | undef : Value
  | fn : Nat → NewResult → Value

instance : Inhabited Value := ⟨Value.undef⟩

/-- The omission marker: the class `KeyValueUndefined` itself, used as a
value.  A class is a function value; constructing it yields an instance
of itself.  We reserve function identity `0` for it. -/
def KeyValueUndefined : Value := Value.fn 0 NewResult.kvuInstance

/-- Source `isKeyValueUndefined`: `typeof data !== "function"` returns
`false`; otherwise the result of `new data() instanceof
KeyValueUndefined`, with a `try`/`catch` turning a throwing construction
into `false`. -/
def isKeyValueUndefined : Value → Bool
  | Value.fn _ NewResult.kvuInstance => true
  | _ => false

/-- Source class `Combination<T>`: holds the zero-argument producer
`values` returning the array of candidate values. -/
structure Combination (α : Type) where
  values : Unit → List α

/-- Inner loop of `arrayCombinate` for bitmask `i`: for each position
`j` of the array, if `i & 2^j` is nonzero, push `array[j]`. -/
def maskList {α : Type} [Inhabited α] (array : List α) (i : Nat) : List α :=
  (List.range array.length).foldl
    (fun newArray j =>
      if i &&& 2 ^ j != 0 then newArray ++ [array.getD j default] else newArray)
    []

/-- Source `arrayCombinate`: starting from `[[]]`, for each `i` below
`2 ^ array.length` build the subsequence selected by bitmask `i` and
push it unless it is empty. -/
def arrayCombinate {α : Type} [Inhabited α] (array : List α) : List (List α) :=
  let len := 2 ^ array.length
  (List.range len).foldl
    (fun resultStack i =>
      let newArray := maskList array i
      if newArray.length != 0 then resultStack ++ [newArray] else resultStack)
    [[]]

/-- Source `some`: a Combination producing `arrayCombinate values`. -/
def some {α : Type} [Inhabited α] (values : List α) : Combination (List α) :=
  ⟨fun _ => arrayCombinate values⟩

/-- Source `optional`: a Combination producing `[value,
KeyValueUndefined]`.  The TypeScript candidate type
`T | typeof KeyValueUndefined` collapses into `Value` here because the
marker class is itself a function value. -/
def optional (value : Value) : Combination Value :=
  ⟨fun _ => [value, KeyValueUndefined]⟩

/-- Source `one`: a Combination producing exactly `values`. -/
def one {α : Type} (values : List α) : Combination α :=
  ⟨fun _ => values⟩

/-- Source `illegal`: re-labels the declared element type of a
Combination without changing its runtime values; at runtime it is the
identity. -/
def illegal {α : Type} (combination : Combination α) : Combination α :=
  combination

/-- A JavaScript object: insertion-ordered association list (a live
object never has two properties with the same key). -/
abbrev JSObj := List (String × Value)

/-- Property lookup `o[k]`, `Option.none` meaning `undefined` because
the key is absent. -/
def jsLookup (k : String) : JSObj → Option Value
  | [] => Option.none
  | kv :: rest => if k = kv.1 then Option.some kv.2 else jsLookup k rest

/-- Property assignment `o[k] = v`: an existing key keeps its position
and gets the new value, a new key is appended at the end. -/
def objSet (o : JSObj) (k : String) (v : Value) : JSObj :=
  if o.any (fun kv => kv.1 = k) then
    o.map (fun kv => if kv.1 = k then (kv.1, v) else kv)
  else
    o ++ [(k, v)]

/-- `Object.assign(target, source)`: assign every property of `source`
onto `target`, in `source`'s key order. -/
def objAssign (target : JSObj) (source : JSObj) : JSObj :=
  source.foldl (fun acc kv => objSet acc kv.1 kv.2) target

/-- A template field binding: a literal value or a Combination (source
type `Value | Combination<Value>`). -/
inductive TValue where
  | lit : Value → TValue
  | comb : Combination Value → TValue

/-- A generation template: a JavaScript object whose property values
are literals or Combinations, in declaration order. -/
abbrev Template := List (String × TValue)

/-- Source `isCombination`: `data instanceof Combination`. -/
def isCombination : TValue → Bool
  | TValue.comb _ => true
  | TValue.lit _ => false

/-- Template property lookup `object[key]`. -/
def jsGetT (object : Template) (key : String) : Option TValue :=
  match object with
  | [] => Option.none
  | kv :: rest => if key = kv.1 then Option.some kv.2 else jsGetT rest key

/-- Source `makeBaseObject`: reduce over `Object.keys(object)`, keeping
(in key order) exactly the entries whose key `shouldRemove` rejects.
Stated generically in the record's value type, as in the source. -/
def makeBaseObject {α : Type} (shouldRemove : String → Bool)
    (object : List (String × α)) : List (String × α) :=
  object.foldl
    (fun baseObject kv => if shouldRemove kv.1 then baseObject else baseObject ++ [kv])
    []

/-- Projection of a literal binding to its value.  In the source the
base object's entries are untyped; under unique keys every entry kept by
`makeBaseObject` with the `isCombination` predicate is a literal, so the
`Value.undef` branch is never reached. -/
def litValue : TValue → Value
  | TValue.lit v => v
  | TValue.comb _ => Value.undef

/-- The base object of `generate`: `makeBaseObject` applied with
`shouldRemove key = isCombination(object[key])`. -/
def baseObjectOf (object : Template) : JSObj :=
  (makeBaseObject
      (fun key => ((jsGetT object key).map isCombination).getD false) object).map
    (fun kv => (kv.1, litValue kv.2))

/-- The `objectCombinations` reduce of `generate`: the `(key, values())`
pairs of the Combination fields, in declaration order.  This is the one
place the producers are invoked. -/
def objectCombinationsOf (object : Template) : List (String × List Value) :=
  object.foldl
    (fun array kv =>
      match kv.2 with
      | TValue.comb c => array ++ [(kv.1, c.values ())]
      | TValue.lit _ => array)
    []

/-- The `k < (combos.length || 1)` loop bound of `generate`: when the
accumulator is empty the inner loop runs once with `combos[k]`
evaluating to `undefined` (here `Option.none`). -/
def priorCombos (combos : List JSObj) : List (Option JSObj) :=
  if combos.length = 0 then [Option.none] else combos.map Option.some

/-- Body of the outer loop of `generate` for one Combination field: for
each candidate `value`, for each prior combo, build
`Object.assign({}, baseObject, combos[k])` (assigning `undefined`
assigns nothing), set `key` unless the candidate is detected by
`isKeyValueUndefined`, and push onto the scratch array. -/
def generateStep (baseObject : JSObj) (key : String) (values : List Value)
    (combos : List JSObj) : List JSObj :=
  values.foldl
    (fun scratch value =>
      scratch ++
        (priorCombos combos).map (fun prior =>
          let combo := objAssign (objAssign [] baseObject) (prior.getD [])
          if isKeyValueUndefined value then combo else objSet combo key value))
    []

/-- Source `generate`: extract the base object, evaluate every
Combination field once, then fold the per-field expansion over the
accumulator, which starts empty.  The `log` flag only prints
diagnostics to the console and has no effect on the result. -/
def generate (object : Template) (log : Bool := false) : List JSObj :=
  (objectCombinationsOf object).foldl
    (fun combos kv => generateStep (baseObjectOf object) kv.1 kv.2 combos)
    []

/-- Extensional equality of JavaScript objects: the same value (or the
same absence) at every key.  Two objects that differ only in key
insertion order are equal in this sense. -/
def ObjEq (a b : JSObj) : Prop := ∀ k, jsLookup k a = jsLookup k b

/-! ### The deep-cloning variant `generate.mutable` -/

mutual
/-- Pure model of `structuredClone` on template values: deep-copies
strings, numbers, `null`, `undefined`, objects and arrays;
throws a `DataCloneError` — modelled as `Option.none` — on function
values, which are not structured-cloneable. -/
def structuredCloneVal : Value → Option Value
  | Value.str s => Option.some (Value.str s)
  | Value.num n => Option.some (Value.num n)
  | Value.null => Option.some Value.null
  | Value.undef => Option.some Value.undef
  | Value.fn _ _ => Option.none
  | Value.obj fields => (cloneFields fields).map Value.obj
  | Value.arr elems => (cloneElems elems).map Value.arr

/-- Clone of an ordered field list; fails if any member fails. -/
def cloneFields : List (String × Value) → Option (List (String × Value))
  | [] => Option.some []
  | (k, v) :: rest =>
    match structuredCloneVal v, cloneFields rest with
    | Option.some w, Option.some r => Option.some ((k, w) :: r)
    | _, _ => Option.none

/-- Clone of an array's element list; fails if any member fails. -/
def cloneElems : List Value → Option (List Value)
  | [] => Option.some []
  | v :: rest =>
    match structuredCloneVal v, cloneElems rest with
    | Option.some w, Option.some r => Option.some (w :: r)
    | _, _ => Option.none
end

/-- The `result.map((obj) => structuredClone(obj))` of
`generate.mutable`, inside its `try`: the first `DataCloneError` aborts
the whole mapping. -/
def cloneResults : List JSObj → Option (List JSObj)
  | [] => Option.some []
  | o :: rest =>
    match cloneFields o, cloneResults rest with
    | Option.some c, Option.some r => Option.some (c :: r)
    | _, _ => Option.none

/-- Source `generate.mutable`: run `generate`, then deep-clone every
result if `typeof structuredClone === "function"` (the parameter
`hasStructuredClone` models the host environment); a clone failure is
caught locally, reported on the console, and the uncloned results are
returned; a missing `structuredClone` is likewise reported and the
uncloned results returned.  The returned Bool records whether a console
error was reported.  The model is a total function: no path raises. -/
def generate.mutable (hasStructuredClone : Bool) (object : Template)
    (log : Bool := false) : List JSObj × Bool :=
  let result := generate object log
  if hasStructuredClone then
    match cloneResults result with
    | Option.some cloned => (cloned, false)
    | Option.none => (result, true)
  else
    (result, true)

/-! ### Heap-instrumented engine, for the frame properties of `generate`

The pure `generate` above cannot express "the template object is not
mutated", so this section re-traces the same algorithm over an explicit
heap: objects live at addresses, every `{}` literal is an allocation,
and every property assignment is a `Heap.write`.  Combination producers
are pure (per the Combination contract) and are modelled by an
environment mapping a producer identity to its candidate list; the
instrumented engine also returns the trace of producer invocations. -/

/-- Heap values: primitives and functions are immediate; objects and
arrays are references into the heap; a Combination instance carries the
identity of its producer. -/
inductive HVal where
  | hstr : String → HVal
  | hnum : Int → HVal
  | hnull : HVal
  | hundef : HVal
  | hfn : Nat → NewResult → HVal
  | ref : Nat → HVal
  | combv : Nat → HVal

/-- A JavaScript heap: a map from addresses to objects (ordered field
lists) and the next fresh address; addresses below `next` are live. -/
structure Heap where
  objs : Nat → List (String × HVal)
  next : Nat

/-- Allocation of a fresh empty object `\x7b\x7d`. -/
def Heap.alloc (h : Heap) : Heap × Nat :=
  (⟨fun a => if a = h.next then [] else h.objs a, h.next + 1⟩, h.next)

/-- Property assignment on a field list, as in `objSet`. -/
def objSetH (o : List (String × HVal)) (k : String) (v : HVal) :
    List (String × HVal) :=
  if o.any (fun kv => kv.1 = k) then
    o.map (fun kv => if kv.1 = k then (kv.1, v) else kv)
  else
    o ++ [(k, v)]

/-- The property write `heap[a][k] = v`. -/
def Heap.write (h : Heap) (a : Nat) (k : String) (v : HVal) : Heap :=
  ⟨fun b => if b = a then objSetH (h.objs a) k v else h.objs b, h.next⟩

/-- `data instanceof Combination` on heap values. -/
def isCombinationH : HVal → Bool
  | HVal.combv _ => true
  | _ => false

/-- `isKeyValueUndefined` on heap values. -/
def isKeyValueUndefinedH : HVal → Bool
  | HVal.hfn _ NewResult.kvuInstance => true
  | _ => false

/-- The `makeBaseObject` reduce: seed a fresh object (already allocated
at `base`) and copy every non-Combination field of the template onto
it. -/
def copyBaseFields (tobj : List (String × HVal)) (base : Nat) (h : Heap) :
    Heap :=
  tobj.foldl
    (fun h2 kv =>
      if isCombinationH kv.2 then h2 else h2.write base kv.1 kv.2)
    h

/-- `Object.assign(target, source)` where both are heap objects: write
every field of the object at `src` onto the object at `c`. -/
def assignFrom (h : Heap) (c : Nat) (src : Nat) : Heap :=
  (h.objs src).foldl (fun h2 fkv => h2.write c fkv.1 fkv.2) h

/-- The `k < (combos.length || 1)` bound over result addresses. -/
def priorsH (combos : List Nat) : List (Option Nat) :=
  if combos.length = 0 then [Option.none] else combos.map Option.some

/-- One `combo = Object.assign(\x7b\x7d, baseObject, combos[k])` followed by
the conditional `combo[key] = value`: allocate the fresh combo object,
assign the base object's fields, assign the prior combo's fields (none
when `combos[k]` is `undefined`), then set `key` unless the candidate is
detected by `isKeyValueUndefinedH`.  Returns the heap and the combo's
address. -/
def mkComboH (base : Nat) (key : String) (value : HVal) (prior : Option Nat)
    (h : Heap) : Heap × Nat :=
  let ac := h.alloc
  let hA := assignFrom ac.1 ac.2 base
  let hB :=
    match prior with
    | Option.some p => assignFrom hA ac.2 p
    | Option.none => hA
  let hC := if isKeyValueUndefinedH value then hB else hB.write ac.2 key value
  (hC, ac.2)

/-- The two inner loops of `generate` for one Combination field: for
each candidate value, for each prior combo address, build the new combo
and push its address onto the scratch list. -/
def generateHStep (base : Nat) (key : String) (values : List HVal)
    (st0 : Heap × List Nat) : Heap × List Nat :=
  values.foldl
    (fun st value =>
      (priorsH st0.2).foldl
        (fun st2 prior =>
          let hc := mkComboH base key value prior st2.1
          (hc.1, st2.2 ++ [hc.2]))
        st)
    (st0.1, [])

/-- Heap-instrumented `generate`: takes the initial heap, the address
`t` of the template object, the producer environment, and the log flag;
returns the final heap, the result objects' addresses, and the trace of
producer invocations.  The `console.log` branch allocates a fresh
diagnostics object and writes one property per Combination field (the
logged payload is irrelevant to the heap frame, so it is modelled as
`undefined`). -/
def generateH (h0 : Heap) (t : Nat) (env : Nat → List HVal) (log : Bool) :
    Heap × List Nat × List Nat :=
  let tobj := h0.objs t
  let ab := h0.alloc
  let h2 := copyBaseFields tobj ab.2 ab.1
  let objectCombinations :=
    tobj.foldl
      (fun array kv =>
        match kv.2 with
        | HVal.combv pid => array ++ [(kv.1, env pid)]
        | _ => array)
      []
  let trace :=
    tobj.foldl
      (fun tr kv =>
        match kv.2 with
        | HVal.combv pid => tr ++ [pid]
        | _ => tr)
      []
  let h3 :=
    if log then
      let ad := h2.alloc
      objectCombinations.foldl (fun h kv => h.write ad.2 kv.1 HVal.hundef) ad.1
    else h2
  let res :=
    objectCombinations.foldl
      (fun st kv => generateHStep ab.2 kv.1 kv.2 st)
      (h3, [])
  (res.1, res.2, trace)

/-- Heap evolution by allocation and by writes to freshly allocated
objects only: the allocation pointer never decreases and every object
live beforehand is unchanged. -/
def HeapExtends (h0 h : Heap) : Prop :=
  h0.next ≤ h.next ∧ ∀ a, a < h0.next → h.objs a = h0.objs a

/-! ### Helper lemmas: folds that push onto an accumulator -/

theorem foldl_push_filter {ι γ : Type} (p : ι → Bool) (f : ι → γ) :
    ∀ (l : List ι) (acc : List γ),
      l.foldl (fun st i => if p i then st ++ [f i] else st) acc
        = acc ++ (l.filter p).map f := by
  intro l
  induction l with
  | nil => intro acc; simp
  | cons x xs ih =>
    intro acc
    by_cases h : p x <;> simp [h, ih, List.filter_cons]

/-! ### The subset enumerator `arrayCombinate` -/

theorem maskList_eq_filter {α : Type} [Inhabited α] (array : List α) (i : Nat) :
    maskList array i
      = ((List.range array.length).filter (fun j => i &&& 2 ^ j != 0)).map
          (fun j => array.getD j default) :=
  foldl_push_filter _ _ _ _

theorem land_two_pow_ne_zero (i j : Nat) : (i &&& 2 ^ j != 0) = i.testBit j := by
  rcases h : i.testBit j with _ | _
  · have h0 : i &&& 2 ^ j = 0 := by
      apply Nat.eq_of_testBit_eq
      intro k
      rcases eq_or_ne j k with rfl | hk
      · simp [Nat.testBit_and, h]
      · simp [Nat.testBit_and, Nat.testBit_two_pow, hk]
    simp [h0]
  · have hbit : (i &&& 2 ^ j).testBit j = true := by
      simp [Nat.testBit_and, h, Nat.testBit_two_pow_self]
    have hne : i &&& 2 ^ j ≠ 0 := by
      intro h0
      rw [h0] at hbit
      simp at hbit
    simp [hne]

theorem maskList_eq_testBit {α : Type} [Inhabited α] (array : List α) (i : Nat) :
    maskList array i
      = ((List.range array.length).filter (fun j => i.testBit j)).map
          (fun j => array.getD j default) := by
  rw [maskList_eq_filter]
  simp only [land_two_pow_ne_zero]

theorem maskList_zero {α : Type} [Inhabited α] (array : List α) :
    maskList array 0 = [] := by
  simp [maskList_eq_testBit]

theorem maskList_ne_nil {α : Type} [Inhabited α] (array : List α) {i : Nat}
    (hpos : 0 < i) (hlt : i < 2 ^ array.length) : maskList array i ≠ [] := by
  obtain ⟨j, hj⟩ := Nat.ne_zero_implies_bit_true (Nat.pos_iff_ne_zero.mp hpos)
  have hjlt : j < array.length := by
    by_contra hge
    have h1 : 2 ^ array.length ≤ 2 ^ j :=
      Nat.pow_le_pow_right (by norm_num) (Nat.le_of_not_lt hge)
    have h2 : 2 ^ j ≤ i := Nat.testBit_implies_ge hj
    omega
  rw [maskList_eq_testBit]
  intro hnil
  rw [List.map_eq_nil_iff, List.filter_eq_nil_iff] at hnil
  exact hnil j (List.mem_range.mpr hjlt) (by simp [hj])

theorem arrayCombinate_eq_filter {α : Type} [Inhabited α] (array : List α) :
    arrayCombinate array
      = [[]] ++ ((List.range (2 ^ array.length)).filter
            (fun i => (maskList array i).length != 0)).map (maskList array) :=
  foldl_push_filter _ _ _ _

theorem arrayCombinate_eq_map_range {α : Type} [Inhabited α] (array : List α) :
    arrayCombinate array = (List.range (2 ^ array.length)).map (maskList array) := by
  rw [arrayCombinate_eq_filter]
  obtain ⟨m, hm⟩ : ∃ m, 2 ^ array.length = m + 1 :=
    ⟨2 ^ array.length - 1, (Nat.succ_pred_eq_of_pos (Nat.two_pow_pos _)).symm⟩
  rw [hm, List.range_succ_eq_map, List.filter_cons]
  have hp0 : ((maskList array 0).length != 0) = false := by
    simp [maskList_zero]
  rw [hp0]
  simp only [Bool.false_eq_true, if_false, List.filter_map]
  have hall : (List.range m).filter ((fun i => (maskList array i).length != 0) ∘ Nat.succ)
      = List.range m := by
    rw [List.filter_eq_self]
    intro j hj
    have hjm : j < m := List.mem_range.mp hj
    have hne := maskList_ne_nil array (Nat.succ_pos j) (by omega)
    simpa using hne
  rw [hall]
  simp [maskList_zero, List.map_map]

theorem filter_range_map_getD_sublist {α : Type} [Inhabited α] (p : Nat → Bool) :
    ∀ (array : List α),
      (((List.range array.length).filter p).map
          (fun j => array.getD j default)).Sublist array := by
  intro array
  induction array using List.reverseRecOn with
  | nil => simp
  | append_singleton xs x ih =>
    have hlen : (xs ++ [x]).length = xs.length + 1 := by simp
    rw [hlen, List.range_succ, List.filter_append, List.map_append]
    refine List.Sublist.append ?_ ?_
    · have hmap : ((List.range xs.length).filter p).map
            (fun j => (xs ++ [x]).getD j default)
          = ((List.range xs.length).filter p).map (fun j => xs.getD j default) := by
        apply List.map_congr_left
        intro j hj
        have hjlt : j < xs.length := List.mem_range.mp (List.mem_of_mem_filter hj)
        exact List.getD_append _ _ _ _ hjlt
      rw [hmap]
      exact ih
    · have hx : (xs ++ [x]).getD xs.length default = x := by
        rw [List.getD_eq_getElem?_getD, List.getElem?_concat_length]
        rfl
      by_cases hp : p xs.length
      · simp [List.filter_cons, hp, hx]
      · simp [List.filter_cons, hp]

theorem maskList_sublist {α : Type} [Inhabited α] (array : List α) (i : Nat) :
    (maskList array i).Sublist array := by
  rw [maskList_eq_testBit]
  exact filter_range_map_getD_sublist _ _

theorem map_injOn_list {ι γ : Type} (f : ι → γ) (P : ι → Prop)
    (hinj : ∀ a b, P a → P b → f a = f b → a = b) :
    ∀ (l1 l2 : List ι), (∀ x ∈ l1, P x) → (∀ x ∈ l2, P x) →
      l1.map f = l2.map f → l1 = l2 := by
  intro l1
  induction l1 with
  | nil =>
    intro l2 _ _ h
    cases l2 with
    | nil => rfl
    | cons b t2 => simp at h
  | cons a t ih =>
    intro l2 h1 h2 h
    cases l2 with
    | nil => simp at h
    | cons b t2 =>
      simp only [List.map_cons, List.cons.injEq] at h
      have hab : a = b := hinj a b (h1 a (by simp)) (h2 b (by simp)) h.1
      subst hab
      have ht := ih t2 (fun x hx => h1 x (by simp [hx]))
        (fun x hx => h2 x (by simp [hx])) h.2
      rw [ht]

theorem getD_inj_of_nodup {α : Type} [Inhabited α] {array : List α}
    (hnd : array.Nodup) {a b : Nat} (ha : a < array.length) (hb : b < array.length)
    (h : array.getD a default = array.getD b default) : a = b := by
  have h1 : array.getD a default = array.get ⟨a, ha⟩ := by
    rw [List.getD_eq_getElem?_getD, List.getElem?_eq_getElem ha]
    rfl
  have h2 : array.getD b default = array.get ⟨b, hb⟩ := by
    rw [List.getD_eq_getElem?_getD, List.getElem?_eq_getElem hb]
    rfl
  rw [h1, h2] at h
  have := (hnd.get_inj_iff).mp h
  exact congrArg Fin.val this

theorem maskList_inj_of_nodup {α : Type} [Inhabited α] {array : List α}
    (hnd : array.Nodup) {x y : Nat} (hx : x < 2 ^ array.length)
    (hy : y < 2 ^ array.length) (h : maskList array x = maskList array y) :
    x = y := by
  rw [maskList_eq_testBit, maskList_eq_testBit] at h
  have hfil : (List.range array.length).filter (fun j => x.testBit j)
      = (List.range array.length).filter (fun j => y.testBit j) := by
    refine map_injOn_list _ (fun j => j < array.length)
      (fun a b ha hb => getD_inj_of_nodup hnd ha hb) _ _ ?_ ?_ h
    · intro j hj
      exact List.mem_range.mp (List.mem_of_mem_filter hj)
    · intro j hj
      exact List.mem_range.mp (List.mem_of_mem_filter hj)
  apply Nat.eq_of_testBit_eq
  intro j
  by_cases hj : j < array.length
  · have hmem : (j ∈ (List.range array.length).filter (fun j => x.testBit j))
        ↔ (j ∈ (List.range array.length).filter (fun j => y.testBit j)) := by
      rw [hfil]
    simp only [List.mem_filter, List.mem_range, hj, true_and] at hmem
    rcases hbx : x.testBit j with _ | _ <;> rcases hby : y.testBit j with _ | _
    · rfl
    · exact absurd (hmem.mpr hby) (by simp [hbx])
    · exact absurd (hmem.mp hbx) (by simp [hby])
    · rfl
  · have hxn : x.testBit j = false :=
      Nat.testBit_lt_two_pow (lt_of_lt_of_le hx
        (Nat.pow_le_pow_right (by norm_num) (Nat.le_of_not_lt hj)))
    have hyn : y.testBit j = false :=
      Nat.testBit_lt_two_pow (lt_of_lt_of_le hy
        (Nat.pow_le_pow_right (by norm_num) (Nat.le_of_not_lt hj)))
    rw [hxn, hyn]

/-- C3 (amended): for every input sequence whose elements are pairwise
distinct, the subsequences returned by `arrayCombinate` are pairwise
distinct, i.e. each subset of the input appears exactly once in the
output. -/
theorem arrayCombinate_nodup {α : Type} [Inhabited α] (array : List α)
    (hnd : array.Nodup) : (arrayCombinate array).Nodup := by
  rw [arrayCombinate_eq_map_range]
  refine List.Nodup.map_on ?_ (List.nodup_range _)
  intro x hx y hy hmask
  exact maskList_inj_of_nodup hnd (List.mem_range.mp hx) (List.mem_range.mp hy) hmask

/-- C3, witness: a concrete pairwise-distinct input on which the amended
theorem applies. -/
theorem arrayCombinate_nodup_witness :
    ([1, 2, 3] : List Nat).Nodup ∧ (arrayCombinate ([1, 2, 3] : List Nat)).Nodup :=
  ⟨by decide, arrayCombinate_nodup [1, 2, 3] (by decide)⟩

/-- C3, counterexample: on an input with a repeated element the output
subsequences are not pairwise distinct — the subset `[1]` appears twice
in `arrayCombinate [1, 1]`. -/
theorem arrayCombinate_dup_counterexample :
    ¬ (arrayCombinate ([1, 1] : List Nat)).Nodup := by
  decide

/-- C5: `arrayCombinate` returns exactly `2 ^ n` subsequences for an
input of length `n`, each a subsequence of the input (preserving the
input's relative order); the output is exactly the family of bitmask
selections in ascending mask order, so the empty subsequence comes
first; `arrayCombinate [] = [[]]` and `arrayCombinate [1, 2, 3]` is the
documented eight-element list. -/
theorem arrayCombinate_spec {α : Type} [Inhabited α] (array : List α) :
    (arrayCombinate array).length = 2 ^ array.length
    ∧ (∀ l ∈ arrayCombinate array, l.Sublist array)
    ∧ (arrayCombinate array).head? = Option.some []
    ∧ arrayCombinate array = (List.range (2 ^ array.length)).map (maskList array)
    ∧ arrayCombinate ([] : List Nat) = [[]]
    ∧ arrayCombinate ([1, 2, 3] : List Nat)
        = [[], [1], [2], [1, 2], [3], [1, 3], [2, 3], [1, 2, 3]] := by
  refine ⟨?_, ?_, ?_, arrayCombinate_eq_map_range array, by decide, by decide⟩
  · rw [arrayCombinate_eq_map_range]
    simp
  · intro l hl
    rw [arrayCombinate_eq_map_range] at hl
    obtain ⟨i, _, rfl⟩ := List.mem_map.mp hl
    exact maskList_sublist array i
  · rw [arrayCombinate_eq_map_range]
    obtain ⟨m, hm⟩ : ∃ m, 2 ^ array.length = m + 1 :=
      ⟨2 ^ array.length - 1, (Nat.succ_pred_eq_of_pos (Nat.two_pow_pos _)).symm⟩
    rw [hm, List.range_succ_eq_map]
    simp [maskList_zero]

/-! ### The expansion engine `generate` -/

theorem foldl_push_append {ι γ : Type} (g : ι → List γ) :
    ∀ (l : List ι) (acc : List γ),
      l.foldl (fun st i => st ++ g i) acc = acc ++ l.flatMap g := by
  intro l
  induction l with
  | nil => intro acc; simp
  | cons x xs ih => intro acc; simp [ih]

theorem sum_map_const_nat {ι : Type} (l : List ι) (c : Nat) :
    (l.map (fun _ => c)).sum = l.length * c := by
  induction l with
  | nil => simp
  | cons x xs ih => simp [ih, Nat.succ_mul, Nat.add_comm]

theorem objectCombinationsOf_eq_filterMap (object : Template) :
    objectCombinationsOf object
      = object.filterMap (fun kv =>
          match kv.2 with
          | TValue.comb c => Option.some (kv.1, c.values ())
          | TValue.lit _ => Option.none) := by
  have aux : ∀ (l : Template) (acc : List (String × List Value)),
      l.foldl (fun array kv =>
          match kv.2 with
          | TValue.comb c => array ++ [(kv.1, c.values ())]
          | TValue.lit _ => array) acc
        = acc ++ l.filterMap (fun kv =>
            match kv.2 with
            | TValue.comb c => Option.some (kv.1, c.values ())
            | TValue.lit _ => Option.none) := by
    intro l
    induction l with
    | nil => intro acc; simp
    | cons kv t ih =>
      intro acc
      obtain ⟨k, tv⟩ := kv
      cases tv with
      | lit v => simpa [List.filterMap_cons] using ih acc
      | comb c => simp [List.filterMap_cons, ih]
  exact aux object []

theorem generateStep_eq_flatMap (baseObject : JSObj) (key : String)
    (values : List Value) (combos : List JSObj) :
    generateStep baseObject key values combos
      = values.flatMap (fun value =>
          (priorCombos combos).map (fun prior =>
            let combo := objAssign (objAssign [] baseObject) (prior.getD [])
            if isKeyValueUndefined value then combo else objSet combo key value)) :=
  foldl_push_append _ _ _

theorem priorCombos_length (combos : List JSObj) :
    (priorCombos combos).length
      = if combos.length = 0 then 1 else combos.length := by
  unfold priorCombos
  split <;> simp_all

theorem generateStep_length (baseObject : JSObj) (key : String)
    (values : List Value) (combos : List JSObj) :
    (generateStep baseObject key values combos).length
      = values.length * (priorCombos combos).length := by
  rw [generateStep_eq_flatMap, List.length_flatMap]
  have hmap : values.map (List.length ∘ fun value =>
        (priorCombos combos).map (fun prior =>
          let combo := objAssign (objAssign [] baseObject) (prior.getD [])
          if isKeyValueUndefined value then combo else objSet combo key value))
      = values.map (fun _ => (priorCombos combos).length) := by
    apply List.map_congr_left
    intro v _
    simp
  rw [hmap, sum_map_const_nat]

theorem genLoop_length (base : JSObj) :
    ∀ (fields : List (String × List Value)) (combos : List JSObj),
      (∀ kv ∈ fields, kv.2 ≠ []) → combos ≠ [] →
      (fields.foldl (fun combos kv => generateStep base kv.1 kv.2 combos)
          combos).length
        = combos.length * (fields.map (fun kv => kv.2.length)).prod := by
  intro fields
  induction fields with
  | nil => intro combos _ _; simp
  | cons f rest ih =>
    intro combos hne hc
    rw [List.foldl_cons]
    have hclen : combos.length ≠ 0 := fun h0 => hc (List.length_eq_zero.mp h0)
    have hflen : (generateStep base f.1 f.2 combos).length
        = f.2.length * combos.length := by
      rw [generateStep_length, priorCombos_length, if_neg hclen]
    have hfne : f.2 ≠ [] := hne f (by simp)
    have hf2len : f.2.length ≠ 0 := fun h0 => hfne (List.length_eq_zero.mp h0)
    have hstep_ne : generateStep base f.1 f.2 combos ≠ [] := by
      intro h0
      have := congrArg List.length h0
      rw [hflen] at this
      simp at this
      rcases this with h | h
      · exact hf2len (List.length_eq_zero.mpr h)
      · exact hclen (List.length_eq_zero.mpr h)
    rw [ih _ (fun kv hkv => hne kv (by simp [hkv])) hstep_ne, hflen]
    simp [List.prod_cons]
    ring

/-- C1 (amended): for every template containing no Combination field at
all, `generate` returns the empty sequence — the initial accumulator,
untouched — rather than a single-element sequence containing the base
object. -/
theorem generate_no_comb_empty (object : Template) (log : Bool)
    (hlit : ∀ kv ∈ object, isCombination kv.2 = false) :
    generate object log = [] := by
  have hcombs : objectCombinationsOf object = [] := by
    rw [objectCombinationsOf_eq_filterMap, List.filterMap_eq_nil_iff]
    intro kv hkv
    have hkvlit := hlit kv hkv
    cases h : kv.2 with
    | lit v => simp
    | comb c => rw [h] at hkvlit; simp [isCombination] at hkvlit
  unfold generate
  rw [hcombs]
  rfl

/-- C1, witness: a template with one literal field and no Combination
field, on which `generate` returns `[]`. -/
theorem generate_no_comb_empty_witness :
    (∀ kv ∈ ([("a", TValue.lit (Value.num 1))] : Template),
        isCombination kv.2 = false)
    ∧ generate [("a", TValue.lit (Value.num 1))] false = [] :=
  ⟨by intro kv hkv; simp at hkv; rw [hkv]; rfl,
   generate_no_comb_empty [("a", TValue.lit (Value.num 1))] false
     (by intro kv hkv; simp at hkv; rw [hkv]; rfl)⟩

/-- C1, counterexample: on the all-literal template `{a: 1}` the claimed
single-element result `[{a: 1}]` is wrong — `generate` returns `[]`. -/
theorem generate_no_comb_counterexample :
    generate [("a", TValue.lit (Value.num 1))] false = []
    ∧ ([] : List JSObj) ≠ [[("a", Value.num 1)]] :=
  ⟨rfl, by simp⟩

/-- C2 (amended): for every template with at least one Combination
field, all of whose candidate sequences are nonempty, the number of
results equals the product over the Combination fields of their
candidate-sequence lengths; in particular two independent fields with
`m` and `n` candidates (`m`, `n` ≥ 1) give exactly `m × n` results.  A
field with zero candidates breaks the product: it empties the
accumulator, and the next field restarts it as one empty combo. -/
theorem generate_length_prod (object : Template) (log : Bool)
    (hne : objectCombinationsOf object ≠ [])
    (hvals : ∀ kv ∈ objectCombinationsOf object, kv.2 ≠ []) :
    (generate object log).length
      = ((objectCombinationsOf object).map (fun kv => kv.2.length)).prod := by
  unfold generate
  obtain ⟨f, rest, hfr⟩ : ∃ f rest, objectCombinationsOf object = f :: rest := by
    cases h : objectCombinationsOf object with
    | nil => exact absurd h hne
    | cons f rest => exact ⟨f, rest, rfl⟩
  rw [hfr, List.foldl_cons]
  have h1 : (generateStep (baseObjectOf object) f.1 f.2 []).length = f.2.length := by
    rw [generateStep_length, priorCombos_length]
    simp
  have hfne : f.2 ≠ [] := hvals f (by rw [hfr]; simp)
  have hstep_ne : generateStep (baseObjectOf object) f.1 f.2 [] ≠ [] := by
    intro h0
    have := congrArg List.length h0
    rw [h1] at this
    exact hfne (List.length_eq_zero.mp (by simpa using this))
  rw [genLoop_length _ rest _
      (fun kv hkv => hvals kv (by rw [hfr]; simp [hkv])) hstep_ne, h1]
  simp [List.prod_cons]

/-- C2, witness: two Combination fields with 2 and 3 candidates give
exactly 6 results. -/
theorem generate_length_prod_witness :
    (objectCombinationsOf
        [("a", TValue.comb (one [Value.num 1, Value.num 2])),
         ("b", TValue.comb (one [Value.num 3, Value.num 4, Value.num 5]))] ≠ [])
    ∧ (∀ kv ∈ objectCombinationsOf
        [("a", TValue.comb (one [Value.num 1, Value.num 2])),
         ("b", TValue.comb (one [Value.num 3, Value.num 4, Value.num 5]))],
        kv.2 ≠ [])
    ∧ (generate
        [("a", TValue.comb (one [Value.num 1, Value.num 2])),
         ("b", TValue.comb (one [Value.num 3, Value.num 4, Value.num 5]))]
        false).length
      = ((objectCombinationsOf
          [("a", TValue.comb (one [Value.num 1, Value.num 2])),
           ("b", TValue.comb (one [Value.num 3, Value.num 4, Value.num 5]))]).map
          (fun kv => kv.2.length)).prod := by
  refine ⟨by simp [objectCombinationsOf, one], ?_, ?_⟩
  · intro kv hkv
    have hkv' : kv = ("a", [Value.num 1, Value.num 2])
        ∨ kv = ("b", [Value.num 3, Value.num 4, Value.num 5]) := by
      simpa [objectCombinationsOf, one] using hkv
    rcases hkv' with rfl | rfl <;> simp
  · exact generate_length_prod _ false (by simp [objectCombinationsOf, one])
      (by
        intro kv hkv
        have hkv' : kv = ("a", [Value.num 1, Value.num 2])
            ∨ kv = ("b", [Value.num 3, Value.num 4, Value.num 5]) := by
          simpa [objectCombinationsOf, one] using hkv
        rcases hkv' with rfl | rfl <;> simp)

/-- C2, counterexample: with a first Combination field producing zero
candidates and a second producing one candidate, the claimed product
`0 × 1 = 0` is wrong — `generate` returns one result, because the
emptied accumulator is then treated as a single empty combo. -/
theorem generate_length_prod_counterexample :
    (generate [("a", TValue.comb (one ([] : List Value))),
               ("b", TValue.comb (one [Value.num 7]))] false).length = 1
    ∧ (1 : Nat) ≠ 0 * 1 :=
  ⟨rfl, by decide⟩

theorem flatMap_singleton_eq_map {ι γ : Type} (f : ι → γ) (l : List ι) :
    l.flatMap (fun x => [f x]) = l.map f := by
  induction l with
  | nil => rfl
  | cons x xs ih => simp [ih]


/-- C4 (amended): every legal candidate value that is not a function
whose `new`-construction yields a `KeyValueUndefined` instance — in
particular every string, number, object, array, `null`, `undefined`,
and every ordinary function — tests `false` under
`isKeyValueUndefined`, and `generate` sets the field to it rather than
omitting it; the omission marker itself tests `true` and is omitted.
(The original claim fails for KVU-constructing function values other
than the marker; see the counterexample.) -/
theorem isKeyValueUndefined_spec (v : Value)
    (hv : ∀ i, v ≠ Value.fn i NewResult.kvuInstance) :
    isKeyValueUndefined v = false
    ∧ generate [("a", TValue.comb (one [v]))] false = [[("a", v)]]
    ∧ isKeyValueUndefined KeyValueUndefined = true
    ∧ generate [("a", TValue.comb (one [KeyValueUndefined]))] false = [[]] := by
  have hfalse : isKeyValueUndefined v = false := by
    cases v with
    | fn i r =>
      cases r with
      | kvuInstance => exact absurd rfl (hv i)
      | throws => rfl
      | nonInstance => rfl
    | str s => rfl
    | num n => rfl
    | obj fields => rfl
    | arr elems => rfl
    | null => rfl
    | undef => rfl
  refine ⟨hfalse, ?_, rfl, rfl⟩
  have hred : generate [("a", TValue.comb (one [v]))] false
      = [if isKeyValueUndefined v then [] else [("a", v)]] := rfl
  rw [hred, hfalse]
  simp

/-- C4, witness: the ordinary string value `"x"` is not detected and is
set by `generate`. -/
theorem isKeyValueUndefined_spec_witness :
    (∀ i, Value.str "x" ≠ Value.fn i NewResult.kvuInstance)
    ∧ (isKeyValueUndefined (Value.str "x") = false
       ∧ generate [("a", TValue.comb (one [Value.str "x"]))] false
           = [[("a", Value.str "x")]]
       ∧ isKeyValueUndefined KeyValueUndefined = true
       ∧ generate [("a", TValue.comb (one [KeyValueUndefined]))] false = [[]]) :=
  ⟨fun i h => Value.noConfusion h,
   isKeyValueUndefined_spec (Value.str "x") (fun i h => Value.noConfusion h)⟩

/-- C4, counterexample: a function value distinct from the marker (say a
subclass of `KeyValueUndefined`, or a function returning a
`KeyValueUndefined` instance) is a legal `Value`, yet
`isKeyValueUndefined` detects it and `generate` omits the field instead
of setting it to that function. -/
theorem isKeyValueUndefined_counterexample :
    isKeyValueUndefined (Value.fn 1 NewResult.kvuInstance) = true
    ∧ Value.fn 1 NewResult.kvuInstance ≠ KeyValueUndefined
    ∧ generate [("a", TValue.comb (one [Value.fn 1 NewResult.kvuInstance]))] false
        = [[]] :=
  ⟨rfl, by simp [KeyValueUndefined], rfl⟩

/-- C6: `optional value` produces exactly the candidate sequence
`[value, KeyValueUndefined]`, and `generate {a: optional "x", b: 1}`
returns exactly the two results `[{a: "x", b: 1}, {b: 1}]` in that
order, the key `a` being entirely absent from the second result. -/
theorem optional_spec :
    (∀ v : Value, (optional v).values () = [v, KeyValueUndefined])
    ∧ List.Forall₂ ObjEq
        (generate [("a", TValue.comb (optional (Value.str "x"))),
                   ("b", TValue.lit (Value.num 1))] false)
        [[("a", Value.str "x"), ("b", Value.num 1)], [("b", Value.num 1)]]
    ∧ jsLookup "a"
        ((generate [("a", TValue.comb (optional (Value.str "x"))),
                    ("b", TValue.lit (Value.num 1))] false).getD 1 [])
      = Option.none := by
  have hgen : generate [("a", TValue.comb (optional (Value.str "x"))),
      ("b", TValue.lit (Value.num 1))] false
      = [[("b", Value.num 1), ("a", Value.str "x")], [("b", Value.num 1)]] := rfl
  refine ⟨fun v => rfl, ?_, ?_⟩
  · rw [hgen]
    refine List.Forall₂.cons ?_ (List.Forall₂.cons ?_ List.Forall₂.nil)
    · intro k
      by_cases h1 : k = "a"
      · subst h1; simp [jsLookup]
      · by_cases h2 : k = "b"
        · subst h2; simp [jsLookup]
        · simp [jsLookup, h1, h2]
    · intro k; rfl
  · rw [hgen]
    simp [jsLookup]

/-- C8 (amended): a Combination field with an empty candidate sequence
empties the accumulator, and the next Combination field treats the empty
accumulator as a single empty combo: for every candidate value `v` not
detected as the omission marker,
`generate {a: one([]), b: one([v])}` returns exactly `[{b: v}]` — one
result with the field `a` absent — rather than the empty sequence. -/
theorem generate_empty_candidates_reset (v : Value)
    (hv : isKeyValueUndefined v = false) :
    generate [("a", TValue.comb (one ([] : List Value))),
              ("b", TValue.comb (one [v]))] false = [[("b", v)]] := by
  have hred : generate [("a", TValue.comb (one ([] : List Value))),
      ("b", TValue.comb (one [v]))] false
      = [if isKeyValueUndefined v then [] else [("b", v)]] := rfl
  rw [hred, hv]
  simp

/-- C8, witness: the amended theorem at the concrete candidate `5`. -/
theorem generate_empty_candidates_reset_witness :
    isKeyValueUndefined (Value.num 5) = false
    ∧ generate [("a", TValue.comb (one ([] : List Value))),
                ("b", TValue.comb (one [Value.num 5]))] false
        = [[("b", Value.num 5)]] :=
  ⟨rfl, generate_empty_candidates_reset (Value.num 5) rfl⟩

/-- C8, counterexample: the original claim quantifies over every value;
at `v := KeyValueUndefined` (a legal function value) the field `b` is
omitted, so the result is `[{}]`, not `[{b: v}]`. -/
theorem generate_empty_candidates_counterexample :
    generate [("a", TValue.comb (one ([] : List Value))),
              ("b", TValue.comb (one [KeyValueUndefined]))] false = [[]]
    ∧ ([[]] : List JSObj) ≠ [[("b", KeyValueUndefined)]] :=
  ⟨rfl, by simp⟩

theorem generateStep_nil_no_marker (base : JSObj) (key : String)
    (values : List Value)
    (hm : ∀ v ∈ values, isKeyValueUndefined v = false) :
    generateStep base key values []
      = values.map (fun v => objSet (objAssign [] base) key v) := by
  rw [generateStep_eq_flatMap]
  have hcong := List.flatMap_congr (l := values)
    (g := fun v => [objSet (objAssign [] base) key v])
    (f := fun value =>
      (priorCombos []).map (fun prior =>
        let combo := objAssign (objAssign [] base) (prior.getD [])
        if isKeyValueUndefined value then combo else objSet combo key value))
    (by
      intro v hv
      have hp : priorCombos [] = [Option.none] := rfl
      simp only [hp, List.map_cons, List.map_nil, Option.getD]
      simp [hm v hv]
      rfl)
  rw [hcong]
  exact flatMap_singleton_eq_map _ _

theorem generateStep_cons_no_marker (base : JSObj) (key : String)
    (values : List Value) (combos : List JSObj) (hc : combos ≠ [])
    (hm : ∀ v ∈ values, isKeyValueUndefined v = false) :
    generateStep base key values combos
      = values.flatMap (fun value =>
          combos.map (fun prior =>
            objSet (objAssign (objAssign [] base) prior) key value)) := by
  rw [generateStep_eq_flatMap]
  have hp : priorCombos combos = combos.map Option.some := by
    unfold priorCombos
    rw [if_neg (fun h => hc (List.length_eq_zero.mp h))]
  rw [hp]
  refine List.flatMap_congr ?_
  intro v hv
  rw [List.map_map]
  refine List.map_congr_left ?_
  intro p hp2
  simp [hm v hv]

/-- C7: the output order of `generate` is the deterministic nested-loop
order — for each Combination field in declaration order, for each of its
candidates in produced order, for each existing accumulator entry: with
two marker-free Combination fields the result is exactly
`vs2.flatMap (fun w => vs1.map (fun v => {k1: v, k2: w}))` (second
field's candidates outermost, accumulator entries innermost); in
particular `generate {a: one([1,2]), b: 6}` returns exactly
`[{a: 1, b: 6}, {a: 2, b: 6}]` in that order. -/
theorem generate_order (k1 k2 : String) (vs1 vs2 : List Value)
    (hk : k1 ≠ k2) (h1 : vs1 ≠ [])
    (hm1 : ∀ v ∈ vs1, isKeyValueUndefined v = false)
    (hm2 : ∀ v ∈ vs2, isKeyValueUndefined v = false) :
    generate [(k1, TValue.comb (one vs1)), (k2, TValue.comb (one vs2))] false
      = vs2.flatMap (fun w => vs1.map (fun v => [(k1, v), (k2, w)]))
    ∧ List.Forall₂ ObjEq
        (generate [("a", TValue.comb (one [Value.num 1, Value.num 2])),
                   ("b", TValue.lit (Value.num 6))] false)
        [[("a", Value.num 1), ("b", Value.num 6)],
         [("a", Value.num 2), ("b", Value.num 6)]] := by
  constructor
  · have hbase : baseObjectOf
        [(k1, TValue.comb (one vs1)), (k2, TValue.comb (one vs2))] = [] := by
      simp [baseObjectOf, makeBaseObject, jsGetT, isCombination, Ne.symm hk]
    have hcombs : objectCombinationsOf
        [(k1, TValue.comb (one vs1)), (k2, TValue.comb (one vs2))]
        = [(k1, vs1), (k2, vs2)] := rfl
    show (objectCombinationsOf
        [(k1, TValue.comb (one vs1)), (k2, TValue.comb (one vs2))]).foldl _ [] = _
    rw [hcombs, hbase]
    rw [List.foldl_cons, List.foldl_cons, List.foldl_nil]
    have hstep1 : generateStep [] k1 vs1 [] = vs1.map (fun v => [(k1, v)]) := by
      rw [generateStep_nil_no_marker [] k1 vs1 hm1]
      rfl
    rw [hstep1]
    have hcne : vs1.map (fun v => [(k1, v)]) ≠ [] :=
      fun h => h1 (List.map_eq_nil_iff.mp h)
    rw [generateStep_cons_no_marker [] k2 vs2 _ hcne hm2]
    refine List.flatMap_congr ?_
    intro w hw
    rw [List.map_map]
    refine List.map_congr_left ?_
    intro v hv
    show objSet (objAssign (objAssign [] []) [(k1, v)]) k2 w = [(k1, v), (k2, w)]
    simp [objSet, objAssign, hk]
  · have hgen : generate [("a", TValue.comb (one [Value.num 1, Value.num 2])),
        ("b", TValue.lit (Value.num 6))] false
        = [[("b", Value.num 6), ("a", Value.num 1)],
           [("b", Value.num 6), ("a", Value.num 2)]] := rfl
    rw [hgen]
    refine List.Forall₂.cons ?_ (List.Forall₂.cons ?_ List.Forall₂.nil)
    · intro k
      by_cases ha : k = "a"
      · subst ha; simp [jsLookup]
      · by_cases hb : k = "b"
        · subst hb; simp [jsLookup]
        · simp [jsLookup, ha, hb]
    · intro k
      by_cases ha : k = "a"
      · subst ha; simp [jsLookup]
      · by_cases hb : k = "b"
        · subst hb; simp [jsLookup]
        · simp [jsLookup, ha, hb]

/-- C7, witness: the general ordering statement applied to the
two-field template `{x: one([1,2]), y: one([5,6])}`, whose output order
is `[{x:1,y:5}, {x:2,y:5}, {x:1,y:6}, {x:2,y:6}]`. -/
theorem generate_order_witness :
    (("x" : String) ≠ "y"
     ∧ ([Value.num 1, Value.num 2] : List Value) ≠ []
     ∧ (∀ v ∈ ([Value.num 1, Value.num 2] : List Value),
          isKeyValueUndefined v = false)
     ∧ (∀ v ∈ ([Value.num 5, Value.num 6] : List Value),
          isKeyValueUndefined v = false))
    ∧ generate [("x", TValue.comb (one [Value.num 1, Value.num 2])),
                ("y", TValue.comb (one [Value.num 5, Value.num 6]))] false
      = ([Value.num 5, Value.num 6] : List Value).flatMap
          (fun w => ([Value.num 1, Value.num 2] : List Value).map
            (fun v => [("x", v), ("y", w)])) := by
  have hm1 : ∀ v ∈ ([Value.num 1, Value.num 2] : List Value),
      isKeyValueUndefined v = false := by
    intro v hv
    simp only [List.mem_cons, List.not_mem_nil, or_false] at hv
    rcases hv with rfl | rfl <;> rfl
  have hm2 : ∀ v ∈ ([Value.num 5, Value.num 6] : List Value),
      isKeyValueUndefined v = false := by
    intro v hv
    simp only [List.mem_cons, List.not_mem_nil, or_false] at hv
    rcases hv with rfl | rfl <;> rfl
  exact ⟨⟨by simp, by simp, hm1, hm2⟩,
    (generate_order "x" "y" [Value.num 1, Value.num 2]
      [Value.num 5, Value.num 6] (by simp) (by simp) hm1 hm2).1⟩


mutual
theorem structuredCloneVal_id : ∀ (v w : Value),
    structuredCloneVal v = Option.some w → w = v
  | Value.str s, w, h => by
    rw [structuredCloneVal] at h
    exact (Option.some.injEq _ _ ▸ h :
      Value.str s = w).symm
  | Value.num n, w, h => by
    rw [structuredCloneVal] at h
    exact ((Option.some.injEq _ _ ▸ h : Value.num n = w)).symm
  | Value.null, w, h => by
    rw [structuredCloneVal] at h
    exact ((Option.some.injEq _ _ ▸ h : Value.null = w)).symm
  | Value.undef, w, h => by
    rw [structuredCloneVal] at h
    exact ((Option.some.injEq _ _ ▸ h : Value.undef = w)).symm
  | Value.fn i r, w, h => by
    rw [structuredCloneVal] at h
    exact Option.noConfusion h
  | Value.obj fields, w, h => by
    rw [structuredCloneVal] at h
    cases hf : cloneFields fields with
    | none => rw [hf] at h; exact Option.noConfusion h
    | some r =>
      rw [hf] at h
      simp only [Option.map_some'] at h
      rw [← (Option.some.injEq _ _ ▸ h : Value.obj r = w),
        cloneFields_id fields r hf]
  | Value.arr elems, w, h => by
    rw [structuredCloneVal] at h
    cases he : cloneElems elems with
    | none => rw [he] at h; exact Option.noConfusion h
    | some r =>
      rw [he] at h
      simp only [Option.map_some'] at h
      rw [← (Option.some.injEq _ _ ▸ h : Value.arr r = w),
        cloneElems_id elems r he]

theorem cloneFields_id : ∀ (l r : List (String × Value)),
    cloneFields l = Option.some r → r = l
  | [], r, h => by
    rw [cloneFields] at h
    exact ((Option.some.injEq _ _ ▸ h : [] = r)).symm
  | (k, v) :: rest, r, h => by
    rw [cloneFields] at h
    cases hv : structuredCloneVal v with
    | none => rw [hv] at h; exact Option.noConfusion h
    | some w =>
      cases hr : cloneFields rest with
      | none => rw [hv, hr] at h; exact Option.noConfusion h
      | some rr =>
        rw [hv, hr] at h
        rw [← (Option.some.injEq _ _ ▸ h : (k, w) :: rr = r),
          structuredCloneVal_id v w hv, cloneFields_id rest rr hr]

theorem cloneElems_id : ∀ (l r : List Value),
    cloneElems l = Option.some r → r = l
  | [], r, h => by
    rw [cloneElems] at h
    exact ((Option.some.injEq _ _ ▸ h : [] = r)).symm
  | v :: rest, r, h => by
    rw [cloneElems] at h
    cases hv : structuredCloneVal v with
    | none => rw [hv] at h; exact Option.noConfusion h
    | some w =>
      cases hr : cloneElems rest with
      | none => rw [hv, hr] at h; exact Option.noConfusion h
      | some rr =>
        rw [hv, hr] at h
        rw [← (Option.some.injEq _ _ ▸ h : w :: rr = r),
          structuredCloneVal_id v w hv, cloneElems_id rest rr hr]
end

theorem cloneResults_id : ∀ (l r : List JSObj),
    cloneResults l = Option.some r → r = l
  | [], r, h => by
    rw [cloneResults] at h
    exact ((Option.some.injEq _ _ ▸ h : [] = r)).symm
  | o :: rest, r, h => by
    rw [cloneResults] at h
    cases ho : cloneFields o with
    | none => rw [ho] at h; exact Option.noConfusion h
    | some c =>
      cases hr : cloneResults rest with
      | none => rw [ho, hr] at h; exact Option.noConfusion h
      | some rr =>
        rw [ho, hr] at h
        rw [← (Option.some.injEq _ _ ▸ h : c :: rr = r),
          cloneFields_id o c ho, cloneResults_id rest rr hr]

/-- C9: `generate.mutable` never raises for valid inputs — it is a total
function whose sole fallible step, deep cloning, is handled locally: the
returned sequence always equals `generate`'s output index for index
(when cloning succeeds the clones are structurally equal to the
originals; when cloning fails, or `structuredClone` is unavailable, the
uncloned results themselves are returned), and an error is reported on
the console channel exactly when `structuredClone` is unavailable or
cloning failed. -/
theorem generate_mutable_spec (hasStructuredClone : Bool) (object : Template)
    (log : Bool) :
    (generate.mutable hasStructuredClone object log).1 = generate object log
    ∧ ((generate.mutable hasStructuredClone object log).2 = true
        ↔ hasStructuredClone = false
          ∨ cloneResults (generate object log) = Option.none) := by
  unfold generate.mutable
  cases hasStructuredClone with
  | false => simp
  | true =>
    cases hc : cloneResults (generate object log) with
    | none => simp [hc]
    | some cloned =>
      have hid := cloneResults_id (generate object log) cloned hc
      subst hid
      simp [hc]


theorem heapExtends_refl (h : Heap) : HeapExtends h h :=
  ⟨le_refl _, fun _ _ => rfl⟩

theorem heapExtends_trans {h0 h1 h2 : Heap} (a : HeapExtends h0 h1)
    (b : HeapExtends h1 h2) : HeapExtends h0 h2 :=
  ⟨le_trans a.1 b.1,
   fun x hx => (b.2 x (lt_of_lt_of_le hx a.1)).trans (a.2 x hx)⟩

theorem alloc_extends (h : Heap) : HeapExtends h h.alloc.1 := by
  refine ⟨Nat.le_succ _, fun a ha => ?_⟩
  show (if a = h.next then [] else h.objs a) = h.objs a
  rw [if_neg (by omega)]

theorem write_extends {h0 h : Heap} (hx : HeapExtends h0 h) {c : Nat}
    (hc : h0.next ≤ c) (k : String) (v : HVal) :
    HeapExtends h0 (h.write c k v) := by
  refine ⟨hx.1, fun a ha => ?_⟩
  show (if a = c then _ else h.objs a) = h0.objs a
  rw [if_neg (by omega)]
  exact hx.2 a ha

theorem foldl_extends {ι : Type} (h0 : Heap) (step : Heap → ι → Heap)
    (hstep : ∀ h x, HeapExtends h0 h → HeapExtends h0 (step h x)) :
    ∀ (l : List ι) (h : Heap), HeapExtends h0 h →
      HeapExtends h0 (l.foldl step h) := by
  intro l
  induction l with
  | nil => intro h hh; exact hh
  | cons x xs ih => intro h hh; exact ih _ (hstep h x hh)

theorem foldl_extends_pair {ι : Type} (h0 : Heap)
    (step : Heap × List Nat → ι → Heap × List Nat)
    (hstep : ∀ st x, HeapExtends h0 st.1 → HeapExtends h0 (step st x).1) :
    ∀ (l : List ι) (st : Heap × List Nat), HeapExtends h0 st.1 →
      HeapExtends h0 (l.foldl step st).1 := by
  intro l
  induction l with
  | nil => intro st hh; exact hh
  | cons x xs ih => intro st hh; exact ih _ (hstep st x hh)

theorem assignFrom_extends {h0 h : Heap} (hx : HeapExtends h0 h) {c : Nat}
    (hc : h0.next ≤ c) (src : Nat) : HeapExtends h0 (assignFrom h c src) := by
  unfold assignFrom
  exact foldl_extends h0 _ (fun h2 fkv hh => write_extends hh hc _ _) _ h hx

theorem copyBaseFields_extends {h0 h : Heap} (hx : HeapExtends h0 h) {base : Nat}
    (hb : h0.next ≤ base) (tobj : List (String × HVal)) :
    HeapExtends h0 (copyBaseFields tobj base h) := by
  unfold copyBaseFields
  refine foldl_extends h0 _ ?_ _ h hx
  intro h2 kv hh
  by_cases hcomb : isCombinationH kv.2
  · rw [if_pos hcomb]; exact hh
  · rw [if_neg hcomb]; exact write_extends hh hb _ _

theorem mkComboH_extends {h0 h : Heap} (hx : HeapExtends h0 h) (base : Nat)
    (key : String) (value : HVal) (prior : Option Nat) :
    HeapExtends h0 (mkComboH base key value prior h).1 := by
  unfold mkComboH
  dsimp only
  have hcfresh : h0.next ≤ h.next := hx.1
  have hA : HeapExtends h0 (assignFrom h.alloc.1 h.alloc.2 base) :=
    assignFrom_extends (heapExtends_trans hx (alloc_extends h)) hcfresh base
  have hB : HeapExtends h0
      (match prior with
       | Option.some p => assignFrom (assignFrom h.alloc.1 h.alloc.2 base)
           h.alloc.2 p
       | Option.none => assignFrom h.alloc.1 h.alloc.2 base) := by
    cases prior with
    | none => exact hA
    | some p => exact assignFrom_extends hA hcfresh p
  by_cases hkvu : isKeyValueUndefinedH value
  · rw [if_pos hkvu]; exact hB
  · rw [if_neg hkvu]; exact write_extends hB hcfresh _ _

theorem generateHStep_extends {h0 : Heap} (base : Nat) (key : String)
    (values : List HVal) (st0 : Heap × List Nat)
    (hx : HeapExtends h0 st0.1) (hb : h0.next ≤ base) :
    HeapExtends h0 (generateHStep base key values st0).1 := by
  unfold generateHStep
  refine foldl_extends_pair h0 _ ?_ values (st0.1, []) hx
  intro st value hst
  refine foldl_extends_pair h0 _ ?_ (priorsH st0.2) st hst
  intro st2 prior hst2
  exact mkComboH_extends hst2 base key value prior

theorem generateH_extends (h0 : Heap) (t : Nat) (env : Nat → List HVal)
    (log : Bool) : HeapExtends h0 (generateH h0 t env log).1 := by
  unfold generateH
  dsimp only
  have hbase : h0.next ≤ h0.alloc.2 := le_refl _
  have h2x : HeapExtends h0 (copyBaseFields (h0.objs t) h0.alloc.2 h0.alloc.1) :=
    copyBaseFields_extends (alloc_extends h0) hbase _
  refine foldl_extends_pair h0 _ ?_ _ _ ?_
  · intro st kv hst
    exact generateHStep_extends _ _ _ _ hst hbase
  · show HeapExtends h0 (if log then _ else _)
    by_cases hlog : log
    · rw [if_pos hlog]
      refine foldl_extends h0 _ ?_ _ _
        (heapExtends_trans h2x (alloc_extends _))
      intro h kv hh
      exact write_extends hh (le_trans h2x.1 (le_refl _)) _ _
    · rw [if_neg hlog]
      exact h2x

theorem trace_eq_filterMap (tobj : List (String × HVal)) :
    ∀ (acc : List Nat),
      tobj.foldl
          (fun tr kv =>
            match kv.2 with
            | HVal.combv pid => tr ++ [pid]
            | _ => tr)
          acc
        = acc ++ tobj.filterMap (fun kv =>
            match kv.2 with
            | HVal.combv pid => Option.some pid
            | _ => Option.none) := by
  induction tobj with
  | nil => intro acc; simp
  | cons kv t ih =>
    intro acc
    rcases kv with ⟨k, hv⟩
    cases hv <;> simp [List.filterMap_cons, ih]

/-- C10: `generate` never mutates the template (frame property):
running the heap-instrumented engine leaves every object that was live
before the call — the template object and every object its field
bindings reference — unchanged, for either value of the log flag; and
the trace of producer invocations is exactly one `values()` call per
Combination field of the template, in declaration order, so each field's
producer is evaluated at most once per call. -/
theorem generate_no_mutation (h0 : Heap) (t : Nat) (env : Nat → List HVal)
    (log : Bool) (a : Nat) (ha : a < h0.next) :
    (generateH h0 t env log).1.objs a = h0.objs a
    ∧ (generateH h0 t env log).2.2
        = (h0.objs t).filterMap (fun kv =>
            match kv.2 with
            | HVal.combv pid => Option.some pid
            | _ => Option.none) := by
  constructor
  · exact (generateH_extends h0 t env log).2 a ha
  · show (h0.objs t).foldl _ [] = _
    rw [trace_eq_filterMap]
    rfl

/-- C10, witness: a one-field template `{x: one-producer-3}` living at
address 0 of a two-address heap; after `generateH` the template object
is unchanged and producer 3 was invoked exactly once. -/
theorem generate_no_mutation_witness :
    (0 : Nat) < (Heap.mk
        (fun a => if a = 0 then [("x", HVal.combv 3), ("y", HVal.hnum 2)] else [])
        1).next
    ∧ ((generateH
          (Heap.mk
            (fun a => if a = 0 then [("x", HVal.combv 3), ("y", HVal.hnum 2)] else [])
            1)
          0 (fun _ => [HVal.hnum 7]) false).1.objs 0
        = (Heap.mk
            (fun a => if a = 0 then [("x", HVal.combv 3), ("y", HVal.hnum 2)] else [])
            1).objs 0
       ∧ (generateH
            (Heap.mk
              (fun a => if a = 0 then [("x", HVal.combv 3), ("y", HVal.hnum 2)] else [])
              1)
            0 (fun _ => [HVal.hnum 7]) false).2.2
          = ((Heap.mk
              (fun a => if a = 0 then [("x", HVal.combv 3), ("y", HVal.hnum 2)] else [])
              1).objs 0).filterMap (fun kv =>
                match kv.2 with
                | HVal.combv pid => Option.some pid
                | _ => Option.none)) :=
  ⟨Nat.zero_lt_one,
   generate_no_mutation
     (Heap.mk
       (fun a => if a = 0 then [("x", HVal.combv 3), ("y", HVal.hnum 2)] else [])
       1)
     0 (fun _ => [HVal.hnum 7]) false 0 Nat.zero_lt_one⟩

end GenComb
